import Mathlib

/-!
Verification of the mojankinator incremental archive builder.

The program maintains a git repository in which every Minecraft version is
archived as one commit on a linear chain, tagged with the version id.  Each
commit's tree embeds the outputs of a fixed set of artifact kinds, and the
commit message records, as a flat TOML body, which schema version of each
kind is embedded.  On every run the branch is cleared and rebuilt: versions
whose recorded ledger is still current are re-tagged with their existing
tree; for the others only the stale kinds are requested from the external
producer and merged with the kept subtrees of the previous tree.

This file gives a shallow embedding of the core data structures and
decision logic of src/main.rs, src/repository.rs and src/decompiler.rs, and
proves or refutes the specified properties against it.
-/

namespace Mojank

/-! ## Artifact kinds (src/decompiler.rs, `DecompileArtifact`)

Repository paths are modeled as lists of path components (`List String`);
Rust `Path::join` on relative paths is list append.
-/

/-- The two producible artifact kinds (src/decompiler.rs:60-63). -/
inductive DecompileArtifact where
  | DecompiledClasses
  | LibrariesTxt
deriving DecidableEq, Repr

/-- `DecompileArtifact::all` (src/decompiler.rs:66-71). -/
def DecompileArtifact.all : List DecompileArtifact :=
  [.DecompiledClasses, .LibrariesTxt]

/-- Current schema version of each kind (src/decompiler.rs:81-86). -/
def DecompileArtifact.version : DecompileArtifact → Nat
  | .DecompiledClasses => 3
  | .LibrariesTxt => 1

/-- `path_in_repository` (src/decompiler.rs:88-93), as path components. -/
def DecompileArtifact.path_in_repository : DecompileArtifact → List String
  | .DecompiledClasses => ["src"]
  | .LibrariesTxt => ["libraries.txt"]

/-! ## The saved ledger (src/main.rs, `SavedInfo`)

The Rust fields are `u32`; they are only ever compared and copied, never
subject to arithmetic, so they are modeled as `Nat`.
-/

/-- Per-version ledger of embedded artifact schema versions (src/main.rs:258-265). -/
structure SavedInfo where
  decompiled_classes_version : Nat
  libraries_output_version : Nat
deriving DecidableEq, Repr

/-- `SavedInfo::default()`: serde defaults both fields to 0. -/
def SavedInfo.default : SavedInfo := ⟨0, 0⟩

/-- `SavedInfo::current()` (src/main.rs:268-273): records the current schema
version for every kind. -/
def SavedInfo.current : SavedInfo :=
  ⟨DecompileArtifact.DecompiledClasses.version, DecompileArtifact.LibrariesTxt.version⟩

/-- `SavedInfo::get_artifact_version` (src/main.rs:275-280). -/
def SavedInfo.get_artifact_version (s : SavedInfo) : DecompileArtifact → Nat
  | .DecompiledClasses => s.decompiled_classes_version
  | .LibrariesTxt => s.libraries_output_version

/-- `SavedInfo::is_current` (src/main.rs:282-285): every recorded version is
at least the corresponding current schema version. -/
def SavedInfo.is_current (s : SavedInfo) : Bool :=
  decide (s.decompiled_classes_version ≥ DecompileArtifact.DecompiledClasses.version) &&
  decide (s.libraries_output_version ≥ DecompileArtifact.LibrariesTxt.version)

/-! ## Versions and the manifest filter (src/main.rs) -/

/-- A UTC instant, with its civil month/day exposed the way `chrono`'s
accessors expose them; ordering of `DateTime<Utc>` is ordering of the
timestamp. -/
structure UtcDateTime where
  timestamp : Int
  month : Nat
  day : Nat
deriving DecidableEq, Repr

/-- A manifest version entry (src/main.rs:229-236). -/
structure Version where
  id : String
  release_time : UtcDateTime
  type_ : String
deriving DecidableEq, Repr

/-- `is_april_fools` (src/main.rs:198-201): `Month::April.number_from_month()`
is 4. -/
def is_april_fools (v : Version) : Bool :=
  decide (v.release_time.month = 4) && decide (v.release_time.day = 1)

/-- The `retain` predicate of the version filter (src/main.rs:86-91). -/
def retain_version (min_release_time max_release_time : UtcDateTime)
    (include_snapshots : Bool) (v : Version) : Bool :=
  let is_snapshot := decide (v.type_ = "snapshot")
  let is_within_range :=
    decide (min_release_time.timestamp ≤ v.release_time.timestamp) &&
    decide (v.release_time.timestamp ≤ max_release_time.timestamp)
  !(is_april_fools v) && is_within_range && (include_snapshots || !is_snapshot)

/-- The filtered version list the driver loop iterates over (src/main.rs:85-91). -/
def filter_versions (min_release_time max_release_time : UtcDateTime)
    (include_snapshots : Bool) (vs : List Version) : List Version :=
  vs.filter (retain_version min_release_time max_release_time include_snapshots)

/-! ## Per-version driver decision (src/main.rs:127-183)

The body of the main loop up to the point where git objects are written:
it either re-tags the existing tree (lookup hit with a current ledger) or
rebuilds, requesting exactly the stale artifact kinds from the producer and
keeping the non-stale kinds' paths of the old tree.
-/

/-- `TreeBase` as the driver fills it (src/repository.rs:254-260): the old
tree's oid plus the kept (non-stale) kinds' repository paths. -/
structure DriverBase where
  tree : Nat
  paths_to_include : List (List String)
deriving DecidableEq, Repr

/-- Outcome of the decision part of one loop iteration (src/main.rs:130-167).
`retag` is the short-circuit at src/main.rs:135-141; `rebuild` carries the
tree base and the artifact kinds passed to `decompile_version`.  The external
producer is invoked exactly in the `rebuild` case. -/
inductive StepAction where
  | retag (tree : Nat) (info : SavedInfo)
  | rebuild (base : Option DriverBase) (needed : List DecompileArtifact)
deriving DecidableEq, Repr

/-- The `artifacts_needed` list built at src/main.rs:151-164: kinds whose
recorded version is strictly below the current schema version. -/
def artifacts_needed (existing_info : SavedInfo) : List DecompileArtifact :=
  DecompileArtifact.all.filter fun a =>
    decide (existing_info.get_artifact_version a < a.version)

/-- The `paths_to_include` pushes at src/main.rs:160-163: repository paths of
the kinds that are *not* requested this run. -/
def kept_paths (existing_info : SavedInfo) : List (List String) :=
  (DecompileArtifact.all.filter fun a =>
      ! decide (existing_info.get_artifact_version a < a.version)).map
    DecompileArtifact.path_in_repository

/-- One iteration's decision (src/main.rs:130-167), as a function of the tag
lookup result for this version. -/
def driverStep (lookup : Option (Nat × SavedInfo)) : StepAction :=
  match lookup with
  | some (tree, info) =>
    if info.is_current then .retag tree info
    else .rebuild (some ⟨tree, kept_paths info⟩) (artifacts_needed info)
  | none => .rebuild none (artifacts_needed SavedInfo.default)

/-! ## The staging index and `create_tree` (src/repository.rs:75-131, 208-252)

The git index is modeled as a list of entries; an entry carries its path,
its content hash (`id`, the oid obtained from `Oid::hash_file`) and its
filesystem metadata (`mode`, standing for the stat-derived fields).  Trees
are modeled by their entry lists (the oid dereferenced).  `add_frombuffer`
replaces any existing entry at the same path.  Error paths of the Rust code
(unreadable file, unknown file type, missing base tree) abort the whole run
and are not modeled.
-/

/-- One staging-index entry (src/repository.rs:219-244). -/
structure IndexEntry where
  path : List String
  id : Nat
  mode : Nat
deriving DecidableEq, Repr

/-- `Index::add_frombuffer`: insert, replacing any entry at the same path. -/
def upsert_entry (index : List IndexEntry) (e : IndexEntry) : List IndexEntry :=
  index.filter (fun x => ! decide (x.path = e.path)) ++ [e]

/-- `add_file_to_index` (src/repository.rs:208-252): the staged path is
`repo_root` joined with the file's path relative to the walk root
(`file.strip_prefix(root)`); for the single-file call the walk root is the
file's parent directory, so `rel_path` is the file's own name. -/
def add_file_to_index (index : List IndexEntry) (repo_root rel_path : List String)
    (oid mode : Nat) : List IndexEntry :=
  upsert_entry index ⟨repo_root ++ rel_path, oid, mode⟩

/-- A regular file found by the `walkdir` walk, identified by its path
relative to the walk root, its content hash and its stat metadata. -/
structure WalkedFile where
  rel_path : List String
  oid : Nat
  mode : Nat

/-- The filesystem shape behind a `SourcePath.root`: either a single regular
file or a directory of regular files (src/repository.rs:110-127; other file
types are fatal errors, not modeled). -/
inductive SourceRoot where
  | file (name : String) (oid : Nat) (mode : Nat)
  | directory (files : List WalkedFile)

/-- `SourcePath` (src/repository.rs:262-266). -/
structure SourcePath where
  root : SourceRoot
  repo_root : List String

/-- `TreeBase` as `create_tree` consumes it, with the base tree oid
dereferenced to its entries. -/
structure TreeBase where
  tree : List IndexEntry
  paths_to_include : List (List String)

/-- The pathspec built at src/repository.rs:96-102 keeps exactly the entries
lying under some `paths_to_include` element (`!p` patterns exempt them, `*`
matches everything else); matching is per path component, so a kept path
covers its whole subtree. -/
def keep_in_base (paths_to_include : List (List String)) (e : IndexEntry) : Bool :=
  paths_to_include.any fun p => p.isPrefixOf e.path

/-- The base tree after `index.read_tree` plus `index.remove_all`
(src/repository.rs:87-108): only entries under a kept path survive. -/
def base_after_remove_all (b : TreeBase) : List IndexEntry :=
  b.tree.filter (keep_in_base b.paths_to_include)

/-- Staging of one `SourcePath` (src/repository.rs:110-128). -/
def add_source (index : List IndexEntry) (s : SourcePath) : List IndexEntry :=
  match s.root with
  | .file name oid mode => add_file_to_index index s.repo_root [name] oid mode
  | .directory files =>
    files.foldl (fun acc f => add_file_to_index acc s.repo_root f.rel_path f.oid f.mode) index

/-- `MojRepository::create_tree` (src/repository.rs:75-131): clear the index,
load and prune the base tree if present, then stage every source. -/
def create_tree (base : Option TreeBase) (source_files : List SourcePath) :
    List IndexEntry :=
  let index : List IndexEntry := []
  let index := match base with
    | none => index
    | some b => base_after_remove_all b
  source_files.foldl add_source index

/-- All paths the staging of `sources` writes. -/
def source_added_paths (s : SourcePath) : List (List String) :=
  match s.root with
  | .file name _ _ => [s.repo_root ++ [name]]
  | .directory files => files.map fun f => s.repo_root ++ f.rel_path

/-- All paths written by a source list. -/
def added_paths (sources : List SourcePath) : List (List String) :=
  (sources.map source_added_paths).flatten

/-! ## Commits, tags and the run loop (src/repository.rs:133-186, src/main.rs:118-191)

Commit ids are indices into the list of commits created by the run; the
branch head is such an index or `none` for an unborn branch, which is the
state `clear_branch` leaves behind.  Commit messages are modeled as
character lists because `find_version_tree_and_info` parses them.
-/

/-- A commit object as `commit_and_tag` creates it (src/repository.rs:157-173):
author and committer signature both carry `version.release_time`. -/
structure Commit where
  tree : Nat
  parents : List Nat
  author_time : Int
  committer_time : Int
  message : List Char
deriving DecidableEq, Repr

/-- The parts of the git store this run mutates: created commits, the branch
head, and the tag namespace. -/
structure RepoState where
  commits : List Commit
  head : Option Nat
  tags : List (String × Nat)
deriving DecidableEq, Repr

/-- `toml::to_string` of a `SavedInfo`: two `key = value` lines. -/
def saved_info_toml (s : SavedInfo) : List Char :=
  "decompiled_classes_version = ".data ++ Nat.toDigits 10 s.decompiled_classes_version
    ++ '\n' :: "libraries_output_version = ".data
    ++ Nat.toDigits 10 s.libraries_output_version ++ ['\n']

/-- The commit message format of src/repository.rs:163-169: summary line,
blank-line separator, serialized ledger. -/
def commit_message (v : Version) (s : SavedInfo) : List Char :=
  "Version ".data ++ v.id.data ++ '\n' :: '\n' :: saved_info_toml s

/-- Force-creation of a tag (src/repository.rs:175-183): any previous tag of
the same name is replaced. -/
def upsert_tag (tags : List (String × Nat)) (id : String) (cid : Nat) :
    List (String × Nat) :=
  tags.filter (fun t => ! decide (t.1 = id)) ++ [(id, cid)]

/-- `MojRepository::commit_and_tag` (src/repository.rs:133-186): parent is
the current head (none on an unborn branch), both timestamps are the
version's release time, HEAD advances to the new commit, and the tag named
`version.id` is force-moved to it. -/
def commit_and_tag (st : RepoState) (v : Version) (saved_info : SavedInfo)
    (tree : Nat) : RepoState :=
  let parents : List Nat := match st.head with | some h => [h] | none => []
  let c : Commit :=
    ⟨tree, parents, v.release_time.timestamp, v.release_time.timestamp,
      commit_message v saved_info⟩
  ⟨st.commits ++ [c], some st.commits.length, upsert_tag st.tags v.id st.commits.length⟩

/-- One full iteration of the driver loop (src/main.rs:127-188): decide via
`driverStep`, then commit and tag — the retag arm reuses the looked-up tree
and ledger, the rebuild arm invokes the producer (abstracted by
`producer_tree`, covering `decompile_version` plus `create_tree`) and
records `SavedInfo::current()`. -/
def process_version (lookup : String → Option (Nat × SavedInfo))
    (producer_tree : Version → List DecompileArtifact → Nat)
    (st : RepoState) (v : Version) : RepoState :=
  match driverStep (lookup v.id) with
  | .retag tree info => commit_and_tag st v info tree
  | .rebuild _base needed => commit_and_tag st v SavedInfo.current (producer_tree v needed)

/-- The driver loop over the filtered, release-time-sorted version list
(src/main.rs:127-188). -/
def run_loop (lookup : String → Option (Nat × SavedInfo))
    (producer_tree : Version → List DecompileArtifact → Nat) :
    RepoState → List Version → RepoState
  | st, [] => st
  | st, v :: rest => run_loop lookup producer_tree (process_version lookup producer_tree st v) rest

/-- The state `clear_branch` (src/repository.rs:44-73) leaves: no commits on
the branch, unborn head; tags survive. -/
def cleared_state (tags : List (String × Nat)) : RepoState := ⟨[], none, tags⟩

/-! ## Tag lookup and ledger parsing (src/repository.rs:28-42)

`find_version_tree_and_info` resolves the tag (absent tags are a normal
`None`), then splits the commit message at the first blank-line separator
and parses the body with `toml::from_str::<SavedInfo>`.  An unparseable
body hits an `.expect`, i.e. a panic; the model returns `panicked` there.

The TOML parser is modeled for the flat `key = <integer>` bodies this
program deals in: blank lines and `#` comments are skipped, any other line
must be `key = value` with an unsigned decimal integer value (serde ignores
unknown keys; missing keys default to 0; `output_version` is an accepted
alias of `decompiled_classes_version`).  Any other line is a parse error.
-/

/-- `str::split_once("\n\n")`: split at the first blank-line separator. -/
def split_once_double_newline : List Char → Option (List Char × List Char)
  | [] => none
  | '\n' :: '\n' :: rest => some ([], rest)
  | c :: rest =>
    match split_once_double_newline rest with
    | some (a, b) => some (c :: a, b)
    | none => none

/-- Split a character list at every newline. -/
def char_lines : List Char → List (List Char)
  | [] => [[]]
  | '\n' :: rest => [] :: char_lines rest
  | c :: rest =>
    match char_lines rest with
    | l :: ls => (c :: l) :: ls
    | [] => [[c]]

/-- TOML-relevant whitespace. -/
def is_toml_ws (c : Char) : Bool := c == ' ' || c == '\t' || c == '\r'

/-- Trim leading and trailing whitespace. -/
def trim_chars (cs : List Char) : List Char :=
  ((cs.dropWhile is_toml_ws).reverse.dropWhile is_toml_ws).reverse

/-- Decimal digit value of a character (codepoints 48-57). -/
def digit_val (c : Char) : Option Nat :=
  let n := c.toNat
  if 48 ≤ n ∧ n ≤ 57 then some (n - 48) else none

/-- Parse an unsigned decimal integer; fails on the empty string or any
non-digit character. -/
def parse_nat_chars (cs : List Char) : Option Nat :=
  match cs with
  | [] => none
  | _ => cs.foldlM (fun acc c => (digit_val c).map fun d => acc * 10 + d) 0

/-- Split at the first `=`. -/
def split_once_eq : List Char → Option (List Char × List Char)
  | [] => none
  | '=' :: rest => some ([], rest)
  | c :: rest =>
    match split_once_eq rest with
    | some (a, b) => some (c :: a, b)
    | none => none

/-- Parse one line of a serialized ledger into the accumulating `SavedInfo`;
`none` is a TOML parse error. -/
def parse_ledger_line (acc : SavedInfo) (line : List Char) : Option SavedInfo :=
  let t := trim_chars line
  if t.isEmpty then some acc
  else if t.head? == some '#' then some acc
  else
    match split_once_eq t with
    | none => none
    | some (k, v) =>
      match parse_nat_chars (trim_chars v) with
      | none => none
      | some n =>
        let key := trim_chars k
        if key == "decompiled_classes_version".data || key == "output_version".data then
          some { acc with decompiled_classes_version := n }
        else if key == "libraries_output_version".data then
          some { acc with libraries_output_version := n }
        else some acc

/-- `toml::from_str::<SavedInfo>` on a commit-message body. -/
def parse_saved_info (body : List Char) : Option SavedInfo :=
  (char_lines body).foldlM parse_ledger_line SavedInfo.default

/-- Result of `find_version_tree_and_info`: `absent` is the early `None` on a
missing tag; `panicked` models the `.expect` on an unparseable body. -/
inductive LookupResult where
  | absent
  | found (tree : Nat) (info : SavedInfo)
  | panicked
deriving DecidableEq, Repr

/-- `MojRepository::find_version_tree_and_info` (src/repository.rs:28-42),
as a function of the tag's target (commit tree oid and message), `none`
when the tag does not exist. -/
def find_version_tree_and_info (tag_target : Option (Nat × List Char)) :
    LookupResult :=
  match tag_target with
  | none => .absent
  | some (tree_oid, message) =>
    match split_once_double_newline message with
    | some (_, info_str) =>
      match parse_saved_info info_str with
      | some info => .found tree_oid info
      | none => .panicked
    | none => .found tree_oid SavedInfo.default

/-! ## Parchment version indexing (src/decompiler.rs:11-46) -/

/-- `PARCHMENT_VERSIONS` (src/decompiler.rs:11-26), in insertion order. -/
def parchment_versions : List (String × String) :=
  [("1.16.5", "2022.03.06"),
   ("1.17.1", "2021.12.12"),
   ("1.18.2", "2022.11.06"),
   ("1.19.2", "2022.11.27"),
   ("1.19.3", "2023.06.25"),
   ("1.19.4", "2023.06.26"),
   ("1.20.1", "2023.09.03"),
   ("1.20.2", "2023.12.10"),
   ("1.20.3", "2023.12.31"),
   ("1.20.4", "2024.04.14"),
   ("1.20.6", "2024.06.16"),
   ("1.21", "2024.07.28")]

/-- The hard-coded Parchment Minecraft version ids, in map insertion order. -/
def parchment_keys : List String := parchment_versions.map Prod.fst

/-- The loop of `index_parchment_mc_versions` (src/decompiler.rs:35-41):
returns the per-version entries in input order together with the keys the
iterator has not yet yielded-and-matched. -/
def index_go : List Version → List String → Option String →
    List (String × Option String) × List String
  | [], remaining, _ => ([], remaining)
  | v :: rest, remaining, current =>
    let step : Option String × List String :=
      match remaining with
      | [] => (current, [])
      | next :: more => if v.id = next then (some next, more) else (current, next :: more)
    let result := index_go rest step.2 step.1
    ((v.id, step.1) :: result.1, result.2)

/-- `index_parchment_mc_versions` (src/decompiler.rs:28-46): `none` models
the `panic!` raised when some hard-coded id was never matched.  The
resulting map is represented by its insertion sequence (ids are unique in
the manifest, so association order is immaterial). -/
def index_parchment_mc_versions (all_versions_sorted_by_date : List Version) :
    Option (List (String × Option String)) :=
  let r := index_go all_versions_sorted_by_date parchment_keys none
  if r.2.isEmpty then some r.1 else none

/-! ## Theorems -/

/-- The `artifacts_needed` loop finds nothing exactly when the ledger is
current: shared bridge between the staleness test and the request list. -/
theorem artifacts_needed_nil_iff (s : SavedInfo) :
    artifacts_needed s = [] ↔ s.is_current = true := by
  cases s with
  | mk c l =>
    rw [artifacts_needed, List.filter_eq_nil_iff]
    simp [DecompileArtifact.all, SavedInfo.is_current,
      SavedInfo.get_artifact_version, DecompileArtifact.version]

/-- C5: for every ledger, `is_current` holds iff the set of stale kinds —
those whose recorded version is strictly below the kind's current schema
version — is empty. -/
theorem is_current_iff_no_stale (s : SavedInfo) :
    s.is_current = true ↔ artifacts_needed s = [] :=
  (artifacts_needed_nil_iff s).symm

/-- C8: whenever the driver decision reaches the producer call (the
`rebuild` arm, which invokes `decompile_version` with `needed`), the
requested kind list is non-empty. -/
theorem producer_never_empty (lookup : Option (Nat × SavedInfo))
    (base : Option DriverBase) (needed : List DecompileArtifact)
    (h : driverStep lookup = .rebuild base needed) : needed ≠ [] := by
  intro hnil
  subst hnil
  match lookup with
  | none =>
    simp [driverStep] at h
    have : artifacts_needed SavedInfo.default = [] := h.2
    rw [artifacts_needed_nil_iff] at this
    simp [SavedInfo.default, SavedInfo.is_current, DecompileArtifact.version] at this
  | some (tree, info) =>
    by_cases hc : info.is_current
    · simp [driverStep, hc] at h
    · simp [driverStep, hc] at h
      exact hc ((artifacts_needed_nil_iff info).mp h.2)

/-- C8 witness: with no prior tag, the rebuild decision requests both kinds,
a non-empty list. -/
theorem producer_never_empty_witness :
    ([DecompileArtifact.DecompiledClasses, DecompileArtifact.LibrariesTxt] :
      List DecompileArtifact) ≠ [] :=
  producer_never_empty none none
    [DecompileArtifact.DecompiledClasses, DecompileArtifact.LibrariesTxt] (by decide)

/-- C4: when the tag lookup succeeds and the saved ledger is current, the
driver takes the `retag` short-circuit — the producer is not invoked (no
`rebuild` action) — and the commit made for the version reuses the
looked-up tree oid and ledger unchanged. -/
theorem short_circuit_reuses_tree (lookup : String → Option (Nat × SavedInfo))
    (producer_tree : Version → List DecompileArtifact → Nat)
    (st : RepoState) (v : Version) (tree : Nat) (info : SavedInfo)
    (hfound : lookup v.id = some (tree, info))
    (hcur : info.is_current = true) :
    driverStep (lookup v.id) = .retag tree info ∧
    process_version lookup producer_tree st v = commit_and_tag st v info tree := by
  have hd : driverStep (lookup v.id) = .retag tree info := by
    rw [hfound]; simp [driverStep, hcur]
  exact ⟨hd, by unfold process_version; rw [hd]⟩

/-- C4 witness: a version with tag lookup hitting a current ledger is
re-committed with the existing tree id 9. -/
theorem short_circuit_reuses_tree_witness :
    driverStep ((fun _ : String => some (9, (⟨3, 1⟩ : SavedInfo))) "1.0") =
      .retag 9 ⟨3, 1⟩ ∧
    process_version (fun _ => some (9, ⟨3, 1⟩)) (fun _ _ => 0) (cleared_state [])
        ⟨"1.0", ⟨0, 1, 1⟩, "release"⟩ =
      commit_and_tag (cleared_state []) ⟨"1.0", ⟨0, 1, 1⟩, "release"⟩ ⟨3, 1⟩ 9 :=
  short_circuit_reuses_tree (fun _ => some (9, ⟨3, 1⟩)) (fun _ _ => 0)
    (cleared_state []) ⟨"1.0", ⟨0, 1, 1⟩, "release"⟩ 9 ⟨3, 1⟩ rfl (by decide)

/-- C9: any version released on April 1 (UTC month 4, day 1) is absent from
the filtered list, whatever the configured range and snapshot policy. -/
theorem april_fools_filtered (min_release_time max_release_time : UtcDateTime)
    (include_snapshots : Bool) (vs : List Version) (v : Version)
    (hfools : is_april_fools v = true) :
    v ∉ filter_versions min_release_time max_release_time include_snapshots vs := by
  intro hmem
  rw [filter_versions, List.mem_filter] at hmem
  have hr := hmem.2
  simp [retain_version, hfools] at hr

/-- C9 witness: the 2019 April 1 snapshot-style entry is dropped even though
it is inside the range and snapshots are included. -/
theorem april_fools_filtered_witness :
    (⟨"af", ⟨50, 4, 1⟩, "snapshot"⟩ : Version) ∉
      filter_versions ⟨0, 1, 1⟩ ⟨100, 12, 31⟩ true
        [⟨"af", ⟨50, 4, 1⟩, "snapshot"⟩, ⟨"r", ⟨60, 5, 2⟩, "release"⟩] :=
  april_fools_filtered ⟨0, 1, 1⟩ ⟨100, 12, 31⟩ true
    [⟨"af", ⟨50, 4, 1⟩, "snapshot"⟩, ⟨"r", ⟨60, 5, 2⟩, "release"⟩]
    ⟨"af", ⟨50, 4, 1⟩, "snapshot"⟩ (by decide)

/-- C1 (amended): on the rebuild path the ledger committed with the new tree
is `SavedInfo::current()`; provided no recorded version of the old ledger
exceeds its kind's current schema version (true of every ledger this
archiver itself writes), that equals the claimed merge: the current schema
version for regenerated kinds and the old recorded version, unchanged, for
the rest. -/
theorem merge_carries_forward_bounded (L : SavedInfo)
    (hbound : ∀ a, L.get_artifact_version a ≤ a.version) (k : DecompileArtifact) :
    SavedInfo.current.get_artifact_version k =
      if k ∈ artifacts_needed L then k.version else L.get_artifact_version k := by
  have hk := hbound k
  by_cases hmem : k ∈ artifacts_needed L
  · rw [if_pos hmem]
    cases k <;> rfl
  · rw [if_neg hmem]
    rw [artifacts_needed, List.mem_filter] at hmem
    have hall : k ∈ DecompileArtifact.all := by cases k <;> decide
    have hge : ¬ L.get_artifact_version k < k.version := by
      intro hlt
      exact hmem ⟨hall, by simpa using hlt⟩
    have : L.get_artifact_version k = k.version := by omega
    rw [this]
    cases k <;> rfl

/-- C1 witness: for the all-zero ledger both kinds are regenerated and both
entries of the committed ledger equal the current schema versions. -/
theorem merge_carries_forward_witness :
    (∀ a, SavedInfo.default.get_artifact_version a ≤ a.version) ∧
    SavedInfo.current.get_artifact_version .LibrariesTxt =
      (if DecompileArtifact.LibrariesTxt ∈ artifacts_needed SavedInfo.default then
        DecompileArtifact.LibrariesTxt.version
      else SavedInfo.default.get_artifact_version .LibrariesTxt) :=
  ⟨fun a => by cases a <;> decide,
   merge_carries_forward_bounded SavedInfo.default (fun a => by cases a <;> decide)
     .LibrariesTxt⟩

/-- C1 counterexample: for the old ledger `{classes: 0, libraries: 5}` the
rebuild path is taken (the ledger is not current), `LibrariesTxt` is *not*
regenerated, yet the committed ledger records its current schema version 1
instead of carrying the old recorded version 5 forward: the commit records
`SavedInfo::current()` for every kind (src/main.rs:183). -/
theorem merge_counterexample :
    (SavedInfo.is_current ⟨0, 5⟩ = false) ∧
    DecompileArtifact.LibrariesTxt ∉ artifacts_needed ⟨0, 5⟩ ∧
    process_version (fun _ => some (9, ⟨0, 5⟩)) (fun _ _ => 11) (cleared_state [])
        ⟨"1.0", ⟨0, 1, 1⟩, "release"⟩ =
      commit_and_tag (cleared_state []) ⟨"1.0", ⟨0, 1, 1⟩, "release"⟩ SavedInfo.current 11 ∧
    SavedInfo.current.get_artifact_version .LibrariesTxt ≠
      (⟨0, 5⟩ : SavedInfo).get_artifact_version .LibrariesTxt := by
  refine ⟨by decide, by decide, ?_, by decide⟩
  rfl

/-- C2: a source whose root is a single regular file is staged at
`repo_root` joined with the file's own name — for the LibrariesTxt output
the staged path is `libraries.txt/libraries.txt`, nested one level below
the kind's repository path `libraries.txt`, not at the repository path
itself as specified. -/
theorem single_file_staged_at_nested_path :
    create_tree none [⟨.file "libraries.txt" 42 33188, ["libraries.txt"]⟩] =
      [⟨["libraries.txt", "libraries.txt"], 42, 33188⟩] ∧
    (["libraries.txt", "libraries.txt"] : List String) ≠ ["libraries.txt"] := by
  exact ⟨rfl, by decide⟩

/-- C3 (amended): looking up a tagged version whose commit message has no
blank-line separator yields the all-zero default ledger without failing;
but when a body is present and does not parse as ledger metadata the lookup
panics (the `.expect` at src/repository.rs:38) instead of defaulting; a
parseable body yields its parsed ledger. -/
theorem lookup_defaults_and_panics (tree : Nat) (message : List Char) :
    (split_once_double_newline message = none →
      find_version_tree_and_info (some (tree, message)) = .found tree SavedInfo.default) ∧
    (∀ pre body, split_once_double_newline message = some (pre, body) →
      parse_saved_info body = none →
      find_version_tree_and_info (some (tree, message)) = .panicked) ∧
    (∀ pre body info, split_once_double_newline message = some (pre, body) →
      parse_saved_info body = some info →
      find_version_tree_and_info (some (tree, message)) = .found tree info) := by
  refine ⟨fun h => ?_, fun pre body h hp => ?_, fun pre body info h hp => ?_⟩
  · simp [find_version_tree_and_info, h]
  · simp [find_version_tree_and_info, h, hp]
  · simp [find_version_tree_and_info, h, hp]

/-- C3 witness: a separator-free message parses to the default ledger, and a
message with the unparseable body `not toml` panics. -/
theorem lookup_defaults_and_panics_witness :
    find_version_tree_and_info (some (7, "Version 1.0".data)) =
      .found 7 SavedInfo.default ∧
    find_version_tree_and_info (some (7, "Version 1.0\n\nnot toml".data)) =
      .panicked :=
  ⟨(lookup_defaults_and_panics 7 "Version 1.0".data).1 (by decide),
   (lookup_defaults_and_panics 7 "Version 1.0\n\nnot toml".data).2.1
     "Version 1.0".data "not toml".data (by decide) (by decide)⟩

/-- C3 counterexample: the lookup of a tag whose commit-message body is
present but not parseable aborts (panics) instead of returning the all-zero
default ledger. -/
theorem lookup_panic_counterexample :
    find_version_tree_and_info (some (3, "Version 1.0\n\n[[[not toml".data)) =
      .panicked ∧
    (LookupResult.panicked ≠ .found 3 SavedInfo.default) := by
  exact ⟨by decide, by decide⟩

/-- An entry with a different path survives `add_frombuffer`. -/
theorem mem_upsert_entry_of_ne {index : List IndexEntry} {e x : IndexEntry}
    (hne : x.path ≠ e.path) (hx : x ∈ index) : x ∈ upsert_entry index e := by
  rw [upsert_entry, List.mem_append]
  exact Or.inl (List.mem_filter.mpr ⟨hx, by simp [hne]⟩)

/-- Staging a directory walk leaves untouched every entry whose path is not
written by the walk. -/
theorem mem_fold_walked_files (repo_root : List String) (files : List WalkedFile) :
    ∀ (index : List IndexEntry) (x : IndexEntry), x ∈ index →
    (∀ f ∈ files, x.path ≠ repo_root ++ f.rel_path) →
    x ∈ files.foldl (fun acc f => add_file_to_index acc repo_root f.rel_path f.oid f.mode)
        index := by
  induction files with
  | nil => intro index x hx _; exact hx
  | cons f rest ih =>
    intro index x hx hne
    rw [List.foldl_cons]
    exact ih _ x
      (mem_upsert_entry_of_ne (hne f (List.mem_cons_self f rest)) hx)
      (fun g hg => hne g (List.mem_cons_of_mem f hg))

/-- Staging one source leaves untouched every entry whose path the source
does not write. -/
theorem mem_add_source {index : List IndexEntry} {s : SourcePath} {x : IndexEntry}
    (hx : x ∈ index) (hne : x.path ∉ source_added_paths s) : x ∈ add_source index s := by
  match hs : s.root with
  | .file name oid mode =>
    rw [add_source, hs]
    show x ∈ upsert_entry index ⟨s.repo_root ++ [name], oid, mode⟩
    refine mem_upsert_entry_of_ne ?_ hx
    intro hcontra
    exact hne (by rw [source_added_paths, hs]; simp [hcontra])
  | .directory files =>
    rw [add_source, hs]
    refine mem_fold_walked_files s.repo_root files index x hx ?_
    intro f hf hcontra
    exact hne (by rw [source_added_paths, hs]; exact List.mem_map.mpr ⟨f, hf, hcontra.symm⟩)

/-- Staging a source list leaves untouched every entry whose path no source
writes. -/
theorem mem_fold_add_source (sources : List SourcePath) :
    ∀ (index : List IndexEntry) (x : IndexEntry), x ∈ index →
    x.path ∉ added_paths sources → x ∈ sources.foldl add_source index := by
  induction sources with
  | nil => intro index x hx _; exact hx
  | cons s rest ih =>
    intro index x hx hne
    rw [List.foldl_cons]
    refine ih _ x (mem_add_source hx ?_) ?_
    · intro hmem
      exact hne (by rw [added_paths]; simp only [List.map_cons, List.flatten_cons,
        List.mem_append]; exact Or.inl hmem)
    · intro hmem
      exact hne (by rw [added_paths]; simp only [List.map_cons, List.flatten_cons,
        List.mem_append]; exact Or.inr (by rw [added_paths] at hmem; exact hmem))

/-- C7: building a tree from a base with the non-regenerated kinds' paths
kept.  Every base entry under a kept path is carried into the new tree
whole — same path, same content oid, same metadata — as long as the fresh
sources write only outside the kept subtrees (they write under the
regenerated kinds' paths, which are disjoint from the kept kinds' paths);
and every base entry under a regenerated kind's path is dropped by the
`remove_all` pruning before any fresh content is staged. -/
theorem tree_reuse (base_entries : List IndexEntry)
    (keep regen : List (List String)) (sources : List SourcePath) (e : IndexEntry)
    (he : e ∈ base_entries)
    (hadd : ∀ q ∈ added_paths sources, ¬ ∃ p ∈ keep, p <+: q)
    (hsep : ∀ r ∈ regen, ∀ p ∈ keep, ¬ p <+: r ∧ ¬ r <+: p) :
    ((∃ p ∈ keep, p <+: e.path) →
      e ∈ create_tree (some ⟨base_entries, keep⟩) sources) ∧
    ((∃ r ∈ regen, r <+: e.path) →
      e ∉ base_after_remove_all ⟨base_entries, keep⟩) := by
  constructor
  · rintro hkeep
    have hbase : e ∈ base_after_remove_all ⟨base_entries, keep⟩ := by
      rw [base_after_remove_all, List.mem_filter]
      refine ⟨he, ?_⟩
      rw [keep_in_base, List.any_eq_true]
      obtain ⟨p, hp, hpref⟩ := hkeep
      exact ⟨p, hp, by simpa using hpref⟩
    have hnadd : e.path ∉ added_paths sources := fun hmem => hadd e.path hmem hkeep
    show e ∈ create_tree (some ⟨base_entries, keep⟩) sources
    rw [create_tree]
    exact mem_fold_add_source sources _ e hbase hnadd
  · rintro ⟨r, hr, hrpref⟩
    rw [base_after_remove_all, List.mem_filter, keep_in_base]
    rintro ⟨-, hany⟩
    rw [List.any_eq_true] at hany
    obtain ⟨p, hp, hppref⟩ := hany
    rw [List.isPrefixOf_iff_prefix] at hppref
    rcases List.prefix_or_prefix_of_prefix hppref hrpref with h | h
    · exact (hsep r hr p hp).1 h
    · exact (hsep r hr p hp).2 h

/-- C7 witness: with `libraries.txt` kept and `src` regenerated, the
libraries entry of the base tree survives into the new tree with its oid
and metadata, and the old `src` entry is pruned before fresh staging. -/
theorem tree_reuse_witness :
    ((⟨["libraries.txt", "libraries.txt"], 2, 33188⟩ : IndexEntry) ∈
      create_tree
        (some ⟨[⟨["src", "A.java"], 1, 33188⟩, ⟨["libraries.txt", "libraries.txt"], 2, 33188⟩],
          [["libraries.txt"]]⟩)
        [⟨.directory [⟨["B.java"], 7, 33188⟩], ["src"]⟩]) ∧
    ((⟨["src", "A.java"], 1, 33188⟩ : IndexEntry) ∉
      base_after_remove_all
        ⟨[⟨["src", "A.java"], 1, 33188⟩, ⟨["libraries.txt", "libraries.txt"], 2, 33188⟩],
          [["libraries.txt"]]⟩) := by
  have h1 := tree_reuse
    [⟨["src", "A.java"], 1, 33188⟩, ⟨["libraries.txt", "libraries.txt"], 2, 33188⟩]
    [["libraries.txt"]] [["src"]]
    [⟨.directory [⟨["B.java"], 7, 33188⟩], ["src"]⟩]
    ⟨["libraries.txt", "libraries.txt"], 2, 33188⟩
    (by decide) (by decide) (by decide)
  have h2 := tree_reuse
    [⟨["src", "A.java"], 1, 33188⟩, ⟨["libraries.txt", "libraries.txt"], 2, 33188⟩]
    [["libraries.txt"]] [["src"]]
    [⟨.directory [⟨["B.java"], 7, 33188⟩], ["src"]⟩]
    ⟨["src", "A.java"], 1, 33188⟩
    (by decide) (by decide) (by decide)
  exact ⟨h1.1 (by decide), h2.2 (by decide)⟩

/-- Both driver arms end in exactly one `commit_and_tag` for the version. -/
theorem process_version_eq_commit (lookup : String → Option (Nat × SavedInfo))
    (producer_tree : Version → List DecompileArtifact → Nat)
    (st : RepoState) (v : Version) :
    ∃ info tree, process_version lookup producer_tree st v = commit_and_tag st v info tree := by
  rw [process_version]
  cases driverStep (lookup v.id) with
  | retag tree info => exact ⟨info, tree, rfl⟩
  | rebuild base needed => exact ⟨SavedInfo.current, producer_tree v needed, rfl⟩

/-- Each loop iteration appends exactly one commit. -/
theorem run_loop_length (lookup : String → Option (Nat × SavedInfo))
    (producer_tree : Version → List DecompileArtifact → Nat) (vs : List Version) :
    ∀ st : RepoState,
    (run_loop lookup producer_tree st vs).commits.length = st.commits.length + vs.length := by
  induction vs with
  | nil => intro st; rw [run_loop]; rfl
  | cons v rest ih =>
    intro st
    rw [run_loop, ih]
    obtain ⟨info, tree, he⟩ := process_version_eq_commit lookup producer_tree st v
    rw [he, commit_and_tag]
    simp only [List.length_cons, List.length_append, List.length_cons, List.length_nil]
    omega

/-- Already-written commits are never modified by later iterations. -/
theorem run_loop_preserves_commits (lookup : String → Option (Nat × SavedInfo))
    (producer_tree : Version → List DecompileArtifact → Nat) (vs : List Version) :
    ∀ (st : RepoState) (j : Nat), j < st.commits.length →
    (run_loop lookup producer_tree st vs).commits[j]? = st.commits[j]? := by
  induction vs with
  | nil => intro st j _; rw [run_loop]
  | cons v rest ih =>
    intro st j hj
    rw [run_loop]
    obtain ⟨info, tree, he⟩ := process_version_eq_commit lookup producer_tree st v
    rw [he]
    have hlen : j < (commit_and_tag st v info tree).commits.length := by
      rw [commit_and_tag]; simp only [List.length_append, List.length_cons, List.length_nil]
      omega
    rw [ih (commit_and_tag st v info tree) j hlen, commit_and_tag,
      List.getElem?_append_left hj]

/-- The commit written for the i-th remaining version: its parent list is
determined by the global commit index, and both of its timestamps are the
version's release time.  Invariant: the head is the index of the last
written commit, or unborn when none exists. -/
theorem run_loop_chain (lookup : String → Option (Nat × SavedInfo))
    (producer_tree : Version → List DecompileArtifact → Nat) (vs : List Version) :
    ∀ st : RepoState,
    st.head = (match st.commits.length with | 0 => none | n + 1 => some n) →
    ∀ i, (hi : i < vs.length) →
    ∃ c, (run_loop lookup producer_tree st vs).commits[st.commits.length + i]? = some c ∧
      c.parents = (match st.commits.length + i with | 0 => ([] : List Nat) | n + 1 => [n]) ∧
      c.author_time = (vs.get ⟨i, hi⟩).release_time.timestamp ∧
      c.committer_time = (vs.get ⟨i, hi⟩).release_time.timestamp := by
  induction vs with
  | nil => intro st _ i hi; exact absurd hi (by simp)
  | cons v rest ih =>
    intro st hinv i hi
    obtain ⟨info, tree, he⟩ := process_version_eq_commit lookup producer_tree st v
    rw [run_loop, he]
    have hlen : (commit_and_tag st v info tree).commits.length = st.commits.length + 1 := by
      rw [commit_and_tag]
      simp only [List.length_append, List.length_cons, List.length_nil]
    cases i with
    | zero =>
      refine ⟨⟨tree, match st.head with | some h => [h] | none => [],
        v.release_time.timestamp, v.release_time.timestamp, commit_message v info⟩,
        ?_, ?_, rfl, rfl⟩
      · rw [run_loop_preserves_commits lookup producer_tree rest _ _ (by omega)]
        rw [commit_and_tag]
        simp [List.getElem?_concat_length]
      · rw [hinv]
        cases hn : st.commits.length with
        | zero => rfl
        | succ n => rfl
    | succ k =>
      have hinv' : (commit_and_tag st v info tree).head =
          (match (commit_and_tag st v info tree).commits.length with
            | 0 => none | n + 1 => some n) := by
        rw [hlen, commit_and_tag]
      have hk : k < rest.length := by simpa using hi
      obtain ⟨c, hc, hp, ha, hct⟩ := ih (commit_and_tag st v info tree) hinv' k hk
      refine ⟨c, ?_, ?_, ha, hct⟩
      · rw [← hc, hlen]
        congr 1
        omega
      · rw [hp, hlen]
        have : st.commits.length + 1 + k = st.commits.length + (k + 1) := by omega
        rw [this]

/-- C6: running the driver from the cleared (empty, unborn-head) branch over
N versions produces exactly N commits; commit 0 has no parent, commit i+1's
sole parent is commit i, and every commit's author and committer timestamps
equal its version's release time (no wall-clock time enters the model). -/
theorem chain_linearity (lookup : String → Option (Nat × SavedInfo))
    (producer_tree : Version → List DecompileArtifact → Nat)
    (tags0 : List (String × Nat)) (vs : List Version)
    (_hsorted : vs.Pairwise fun a b =>
      a.release_time.timestamp ≤ b.release_time.timestamp)
    (i : Nat) (hi : i < vs.length) :
    (run_loop lookup producer_tree (cleared_state tags0) vs).commits.length = vs.length ∧
    ∃ c, (run_loop lookup producer_tree (cleared_state tags0) vs).commits[i]? = some c ∧
      c.parents = (if i = 0 then [] else [i - 1]) ∧
      c.author_time = (vs.get ⟨i, hi⟩).release_time.timestamp ∧
      c.committer_time = (vs.get ⟨i, hi⟩).release_time.timestamp := by
  have hlen := run_loop_length lookup producer_tree vs (cleared_state tags0)
  have hchain := run_loop_chain lookup producer_tree vs (cleared_state tags0) rfl i hi
  simp only [cleared_state, List.length_nil, Nat.zero_add] at hlen hchain
  refine ⟨hlen, ?_⟩
  obtain ⟨c, hc, hp, ha, hct⟩ := hchain
  refine ⟨c, hc, ?_, ha, hct⟩
  rw [hp]
  cases i with
  | zero => rfl
  | succ n => rfl

/-- C6 witness: two versions from the cleared branch — two commits, the
first parentless, the second's parent is commit 0, timestamps 10 and 20. -/
theorem chain_linearity_witness :
    (run_loop (fun _ => none) (fun _ _ => 0) (cleared_state [])
      [⟨"a", ⟨10, 1, 1⟩, "release"⟩, ⟨"b", ⟨20, 1, 2⟩, "release"⟩]).commits.length = 2 ∧
    ∃ c, (run_loop (fun _ => none) (fun _ _ => 0) (cleared_state [])
        [⟨"a", ⟨10, 1, 1⟩, "release"⟩, ⟨"b", ⟨20, 1, 2⟩, "release"⟩]).commits[1]? = some c ∧
      c.parents = (if 1 = 0 then [] else [1 - 1]) ∧
      c.author_time = (20 : Int) ∧
      c.committer_time = (20 : Int) :=
  chain_linearity (fun _ => none) (fun _ _ => 0) []
    [⟨"a", ⟨10, 1, 1⟩, "release"⟩, ⟨"b", ⟨20, 1, 2⟩, "release"⟩]
    (by simp) 1 (by decide)

/-- With no keys left to match, the loop never leaves a leftover. -/
theorem index_go_nil_keys (vs : List Version) :
    ∀ cur, (index_go vs [] cur).2 = [] := by
  induction vs with
  | nil => intro cur; rfl
  | cons v rest ih => intro cur; simp only [index_go]; exact ih cur

/-- A cons sublist with distinct heads lives in the tail. -/
theorem cons_sublist_cons_of_ne {α : Type} {a b : α} {l₁ l₂ : List α}
    (hne : a ≠ b) : (a :: l₁).Sublist (b :: l₂) ↔ (a :: l₁).Sublist l₂ := by
  constructor
  · intro h
    rcases List.sublist_cons_iff.mp h with h' | ⟨r, heq, -⟩
    · exact h'
    · injection heq with h1 _
      exact absurd h1 hne
  · exact fun h => h.cons b

/-- The loop matches every hard-coded key exactly when the keys occur, in
their hard-coded order, as a subsequence of the input ids (greedy matching
is complete for subsequences). -/
theorem index_go_leftover_nil (vs : List Version) :
    ∀ (keys : List String) (cur : Option String),
    (index_go vs keys cur).2 = [] ↔ keys.Sublist (vs.map Version.id) := by
  induction vs with
  | nil =>
    intro keys cur
    simp only [index_go, List.map_nil, List.sublist_nil]
  | cons v rest ih =>
    intro keys cur
    cases keys with
    | nil =>
      simp [index_go, index_go_nil_keys, List.nil_sublist]
    | cons k ks =>
      by_cases h : v.id = k
      · simp only [index_go, if_pos h, List.map_cons, ← h, List.cons_sublist_cons]
        exact ih ks (some v.id)
      · simp only [index_go, if_neg h, List.map_cons,
          cons_sublist_cons_of_ne (fun he => h he.symm)]
        exact ih (k :: ks) cur

/-- A filter keeping exactly a run of already-seen keys: the seen prefix
survives, the unseen rest is dropped. -/
theorem filter_consumed_only (consumed keys dom : List String)
    (hcons : ∀ x ∈ consumed, x ∈ dom) (hkeys : ∀ x ∈ keys, x ∉ dom) :
    List.filter (fun k => decide (k ∈ dom)) (consumed ++ keys) = consumed := by
  rw [List.filter_append,
    List.filter_eq_self.mpr (fun x hx => by simpa using hcons x hx),
    List.filter_eq_nil_iff.mpr (fun x hx => by simpa using hkeys x hx),
    List.append_nil]

/-- Like `filter_consumed_only`, but the head of the remaining keys has just
been seen. -/
theorem filter_consumed_hit (consumed ks dom : List String) (k : String)
    (hcons : ∀ x ∈ consumed, x ∈ dom) (hk : k ∈ dom) (hks : ∀ x ∈ ks, x ∉ dom) :
    List.filter (fun x => decide (x ∈ dom)) (consumed ++ k :: ks) = consumed ++ [k] := by
  rw [List.filter_append,
    List.filter_eq_self.mpr (fun x hx => by simpa using hcons x hx),
    List.filter_cons_of_pos (by simpa using hk),
    List.filter_eq_nil_iff.mpr (fun x hx => by simpa using hks x hx)]

/-- The entry recorded for the i-th remaining version is its id paired with
the hard-coded key most recently matched up to that position, i.e. the last
element of the already-consumed-plus-remaining key list that occurs among
the ids seen so far.  `consumed` are the keys already matched (all of them
seen, i.e. members of `past`), `keys` the remaining ones (none seen yet),
and the loop's `current` is the last consumed key. -/
theorem index_go_entries (vs : List Version) :
    ∀ (consumed keys past : List String),
    (consumed ++ keys).Nodup →
    keys.Sublist (vs.map Version.id) →
    (past ++ vs.map Version.id).Nodup →
    (∀ k ∈ consumed, k ∈ past) →
    (∀ k ∈ keys, k ∉ past) →
    ∀ i, (hi : i < vs.length) →
    ((index_go vs keys consumed.getLast?).1)[i]? =
      some ((vs.get ⟨i, hi⟩).id,
        ((consumed ++ keys).filter
          (fun k => decide (k ∈ past ++ (vs.map Version.id).take (i + 1)))).getLast?) := by
  induction vs with
  | nil => intro _ _ _ _ _ _ _ _ i hi; exact absurd hi (by simp)
  | cons v rest ih =>
    intro consumed keys past hck hsub hpast hcons hkeys i hi
    have hvid : v.id ∉ rest.map Version.id := by
      have h2 : (v.id :: rest.map Version.id).Nodup := by
        have := List.Nodup.of_append_right hpast
        simpa using this
      exact (List.nodup_cons.mp h2).1
    have hpast' : ((past ++ [v.id]) ++ rest.map Version.id).Nodup := by
      rw [List.map_cons] at hpast
      rwa [List.append_cons] at hpast
    have hconsdom : ∀ x ∈ consumed, x ∈ past ++ [v.id] :=
      fun x hx => List.mem_append.mpr (Or.inl (hcons x hx))
    cases keys with
    | nil =>
      cases i with
      | zero =>
        simp only [index_go, List.getElem?_cons_zero, List.map_cons,
          List.take_succ_cons, List.take_zero]
        rw [filter_consumed_only consumed [] (past ++ [v.id]) hconsdom (by simp)]
        rfl
      | succ j =>
        have hj : j < rest.length := by simpa using hi
        simp only [index_go, List.getElem?_cons_succ, List.map_cons,
          List.take_succ_cons]
        have H := ih consumed [] (past ++ [v.id])
          hck
          (List.nil_sublist _)
          hpast'
          hconsdom
          (by simp)
          j hj
        simp only [← List.append_cons] at H
        exact H
    | cons k ks =>
      by_cases h : v.id = k
      · have hkks : k ∉ ks := by
          have := List.Nodup.of_append_right hck
          exact (List.nodup_cons.mp this).1
        have hkdom : k ∈ past ++ [v.id] :=
          List.mem_append.mpr (Or.inr (by rw [← h]; exact List.mem_singleton_self _))
        have hksdom : ∀ x ∈ ks, x ∉ past ++ [v.id] := by
          intro x hx hmem
          rcases List.mem_append.mp hmem with hpx | hvx
          · exact hkeys x (List.mem_cons_of_mem k hx) hpx
          · have hxk : x = k := (List.mem_singleton.mp hvx).trans h
            exact hkks (hxk ▸ hx)
        cases i with
        | zero =>
          simp only [index_go, if_pos h, List.getElem?_cons_zero, List.map_cons,
            List.take_succ_cons, List.take_zero]
          rw [filter_consumed_hit consumed ks (past ++ [v.id]) k hconsdom hkdom hksdom,
            List.getLast?_concat]
          rfl
        | succ j =>
          have hj : j < rest.length := by simpa using hi
          simp only [index_go, if_pos h, List.getElem?_cons_succ, List.map_cons,
            List.take_succ_cons]
          have H := ih (consumed ++ [k]) ks (past ++ [v.id])
            (by rwa [← List.append_cons])
            (by
              have h2 : (k :: ks).Sublist (v.id :: rest.map Version.id) := hsub
              rw [h] at h2
              exact List.cons_sublist_cons.mp h2)
            hpast'
            (by
              intro x hx
              rcases List.mem_append.mp hx with hx | hx
              · exact hconsdom x hx
              · rw [List.mem_singleton.mp hx]
                exact hkdom)
            hksdom
            j hj
          rw [List.getLast?_concat] at H
          simp only [← List.append_cons] at H
          exact H
      · have hksub : (k :: ks).Sublist (rest.map Version.id) := by
          have h2 : (k :: ks).Sublist (v.id :: rest.map Version.id) := hsub
          exact (cons_sublist_cons_of_ne (fun he => h he.symm)).mp h2
        have hkeysdom : ∀ x ∈ k :: ks, x ∉ past ++ [v.id] := by
          intro x hx hmem
          rcases List.mem_append.mp hmem with hpx | hvx
          · exact hkeys x hx hpx
          · have hxv : x = v.id := List.mem_singleton.mp hvx
            exact hvid (hxv ▸ hksub.subset hx)
        cases i with
        | zero =>
          simp only [index_go, if_neg h, List.getElem?_cons_zero, List.map_cons,
            List.take_succ_cons, List.take_zero]
          rw [filter_consumed_only consumed (k :: ks) (past ++ [v.id]) hconsdom hkeysdom]
          rfl
        | succ j =>
          have hj : j < rest.length := by simpa using hi
          simp only [index_go, if_neg h, List.getElem?_cons_succ, List.map_cons,
            List.take_succ_cons]
          have H := ih consumed (k :: ks) (past ++ [v.id])
            hck
            hksub
            hpast'
            hconsdom
            hkeysdom
            j hj
          simp only [← List.append_cons] at H
          exact H

/-- C10 (amended): `index_parchment_mc_versions` panics exactly when the
hard-coded Parchment ids, in their hard-coded order, do not occur as a
subsequence of the supplied version ids (mere occurrence of every id is not
enough — an out-of-order occurrence also panics); when they do occur in
order (ids being unique), the function returns and maps each input version
to the most recent hard-coded id appearing at or before it in input order —
the last hard-coded key occurring among the versions seen so far — or to
`none` when none precedes it. -/
theorem index_parchment_characterization (vs : List Version)
    (hnodup : (vs.map Version.id).Nodup) :
    (index_parchment_mc_versions vs = none ↔
      ¬ parchment_keys.Sublist (vs.map Version.id)) ∧
    (∀ m, index_parchment_mc_versions vs = some m →
      ∀ i, (hi : i < vs.length) →
      m[i]? = some ((vs.get ⟨i, hi⟩).id,
        (parchment_keys.filter
          (fun k => decide (k ∈ (vs.map Version.id).take (i + 1)))).getLast?)) := by
  constructor
  · constructor
    · intro hnone hsub
      have hleft : (index_go vs parchment_keys none).2 = [] :=
        (index_go_leftover_nil vs parchment_keys none).mpr hsub
      rw [index_parchment_mc_versions] at hnone
      simp [hleft] at hnone
    · intro hnsub
      have hleft : ¬ (index_go vs parchment_keys none).2 = [] :=
        fun he => hnsub ((index_go_leftover_nil vs parchment_keys none).mp he)
      rw [index_parchment_mc_versions]
      simp [List.isEmpty_iff, hleft]
  · intro m hm i hi
    rw [index_parchment_mc_versions] at hm
    by_cases hemp : (index_go vs parchment_keys none).2.isEmpty
    · rw [if_pos hemp] at hm
      injection hm with hm
      subst hm
      have hsub : parchment_keys.Sublist (vs.map Version.id) :=
        (index_go_leftover_nil vs parchment_keys none).mp (List.isEmpty_iff.mp hemp)
      have H := index_go_entries vs [] parchment_keys []
        (by simp only [List.nil_append]; decide)
        hsub
        (by simpa using hnodup)
        (by simp)
        (by simp)
        i hi
      simpa using H
    · rw [if_neg hemp] at hm
      cases hm

/-- C10 witness: on an empty version list the panic branch is taken, since
the keys are not a subsequence of the empty id list. -/
theorem index_parchment_characterization_witness :
    index_parchment_mc_versions [] = none :=
  ((index_parchment_characterization [] (by decide)).1).mpr (by decide)

/-- C10 counterexample: an input in which every hard-coded Parchment id
occurs, but with the first two swapped relative to the hard-coded order —
the function still panics, so "all ids occur" does not make the mapping
total, contrary to the claim. -/
theorem index_parchment_counterexample :
    (∀ k ∈ parchment_keys, k ∈
      (["1.17.1", "1.16.5", "1.18.2", "1.19.2", "1.19.3", "1.19.4", "1.20.1",
        "1.20.2", "1.20.3", "1.20.4", "1.20.6", "1.21"].map
          (fun s => (⟨s, ⟨0, 1, 1⟩, "release"⟩ : Version))).map Version.id) ∧
    index_parchment_mc_versions
      (["1.17.1", "1.16.5", "1.18.2", "1.19.2", "1.19.3", "1.19.4", "1.20.1",
        "1.20.2", "1.20.3", "1.20.4", "1.20.6", "1.21"].map
          (fun s => (⟨s, ⟨0, 1, 1⟩, "release"⟩ : Version))) = none := by
  constructor
  · decide
  · decide

end Mojank
